import Mathlib

set_option maxHeartbeats 1000000

namespace onnxruntime

/-! # Verification of the heterogeneous graph-execution core

Shallow embedding of the configuration surface in
`core/framework/session_options.h`, the WebNN provider capability surface in
`core/providers/webnn/webnn_execution_provider.h`, the transformer-pass
contract of `core/optimizer/group_query_attention_fusion.h`, and — modelled
from the specification where the repository snapshot only carries the
configuration knobs — the topological sorter, the memory planner, the
transformer fixpoint loop and the executor serialization rule.
-/

/-- `ExecutionOrder` from core/framework/session_options.h: the three
topological-sort policies (underlying values 0, 1, 2). -/
inductive ExecutionOrder where
  | DEFAULT
  | PRIORITY_BASED
  | MEMORY_EFFICIENT
deriving DecidableEq

/-- Graph nodes are identified by natural numbers. -/
abbrev NodeId := Nat

/-- Modelled from the spec: in the dataflow scheduler a node is ready once every
data edge into it has its producer already placed, i.e. no producer of the node
is still among the remaining (unplaced) nodes. The sorter implementations are
not part of this snapshot; only the `ExecutionOrder` selector is. -/
def isReady (edges : List (NodeId × NodeId)) (remaining : List NodeId) (r : NodeId) : Bool :=
  edges.all fun e => decide (e.2 ≠ r) || decide (e.1 ∉ remaining)

/-- The ready subset of the remaining nodes. -/
def readyNodes (edges : List (NodeId × NodeId)) (remaining : List NodeId) : List NodeId :=
  remaining.filter (isReady edges remaining)

/-- Index of a minimal-score element of a list of nodes (0 on the empty list). -/
def argminIdx (f : NodeId → Int) : List NodeId → Nat
  | [] => 0
  | [_] => 0
  | x :: y :: rest =>
    let r := argminIdx f (y :: rest)
    if f x ≤ f ((y :: rest).getD r 0) then 0 else r + 1

/-- Modelled from the spec: the tie-break selector among ready nodes for each of
the three `ExecutionOrder` policies — arrival order takes the first ready node,
the priority-based policy takes a ready node of numerically smallest priority
band, the memory-efficient policy takes a ready node of smallest liveness
cost. -/
def tieBreakFor (o : ExecutionOrder) (prio liveCost : NodeId → Int) :
    List NodeId → List NodeId → Nat :=
  match o with
  | .DEFAULT => fun _ _ => 0
  | .PRIORITY_BASED => fun _ ready => argminIdx prio ready
  | .MEMORY_EFFICIENT => fun _ ready => argminIdx liveCost ready

/-- The node the policy selects among the ready nodes (index taken modulo the
number of ready nodes, so any policy value selects a ready node). -/
def chooseNode (policy : List NodeId → List NodeId → Nat) (edges : List (NodeId × NodeId))
    (placed remaining : List NodeId) : NodeId :=
  (readyNodes edges remaining).getD
    (policy placed (readyNodes edges remaining) % (readyNodes edges remaining).length) 0

/-- Modelled from the spec: Kahn-style topological sort. Each step places one
policy-chosen ready node; the result is `none` when the graph is not fully
sortable within the fuel (e.g. on a cycle). -/
def topoAux (policy : List NodeId → List NodeId → Nat) (edges : List (NodeId × NodeId)) :
    Nat → List NodeId → List NodeId → Option (List NodeId)
  | 0, placed, remaining => if remaining.isEmpty then some placed else none
  | fuel + 1, placed, remaining =>
    if remaining.isEmpty then some placed
    else if (readyNodes edges remaining).isEmpty then none
    else
      topoAux policy edges fuel
        (placed ++ [chooseNode policy edges placed remaining])
        (remaining.erase (chooseNode policy edges placed remaining))

/-- Topological sort of a node list under a tie-break policy. -/
def topoSort (policy : List NodeId → List NodeId → Nat) (nodes : List NodeId)
    (edges : List (NodeId × NodeId)) : Option (List NodeId) :=
  topoAux policy edges nodes.length [] nodes

/-- Position of a node in a finalized execution order. -/
def orderPosition : List NodeId → NodeId → Nat
  | [], _ => 0
  | y :: rest, x => if y = x then 0 else orderPosition rest x + 1

theorem orderPosition_append_left {x : NodeId} {l1 l2 : List NodeId} (h : x ∈ l1) :
    orderPosition (l1 ++ l2) x = orderPosition l1 x := by
  induction l1 with
  | nil => cases h
  | cons y t ih =>
    by_cases hyx : y = x
    · simp [orderPosition, hyx]
    · have hxt : x ∈ t := by
        rcases List.mem_cons.mp h with h1 | h1
        · exact absurd h1.symm hyx
        · exact h1
      simp [orderPosition, hyx, ih hxt]

theorem orderPosition_append_of_not_mem {x : NodeId} {l1 l2 : List NodeId} (h : x ∉ l1) :
    orderPosition (l1 ++ l2) x = l1.length + orderPosition l2 x := by
  induction l1 with
  | nil => simp [orderPosition]
  | cons y t ih =>
    have hyx : y ≠ x := fun he => h (he ▸ List.mem_cons_self y t)
    have hxt : x ∉ t := fun hm => h (List.mem_cons_of_mem _ hm)
    simp [orderPosition, hyx, ih hxt]
    omega

theorem orderPosition_lt_length {x : NodeId} {l : List NodeId} (h : x ∈ l) :
    orderPosition l x < l.length := by
  induction l with
  | nil => cases h
  | cons y t ih =>
    by_cases hyx : y = x
    · simp [orderPosition, hyx]
    · have hxt : x ∈ t := by
        rcases List.mem_cons.mp h with h1 | h1
        · exact absurd h1.symm hyx
        · exact h1
      simp [orderPosition, hyx]
      exact ih hxt

theorem getD_mod_mem {l : List NodeId} (h : l.isEmpty = false) (n : Nat) :
    l.getD (n % l.length) 0 ∈ l := by
  have hlen : 0 < l.length := by
    cases l with
    | nil => simp at h
    | cons a t => simp
  have hlt : n % l.length < l.length := Nat.mod_lt _ hlen
  rw [List.getD_eq_getElem _ _ hlt]
  exact List.getElem_mem hlt

theorem topoAux_sound (policy : List NodeId → List NodeId → Nat)
    (edges : List (NodeId × NodeId)) :
    ∀ (fuel : Nat) (placed remaining ord : List NodeId),
      remaining.Nodup →
      (∀ x ∈ placed, x ∉ remaining) →
      (∀ e ∈ edges, (e.1 ∈ placed ∨ e.1 ∈ remaining) ∧ (e.2 ∈ placed ∨ e.2 ∈ remaining)) →
      (∀ e ∈ edges, e.2 ∈ placed →
        e.1 ∈ placed ∧ orderPosition placed e.1 < orderPosition placed e.2) →
      topoAux policy edges fuel placed remaining = some ord →
      ∀ e ∈ edges, e.1 ∈ ord ∧ e.2 ∈ ord ∧ orderPosition ord e.1 < orderPosition ord e.2 := by
  intro fuel
  induction fuel with
  | zero =>
    intro placed remaining ord hnd hdisj hcov hQ hrun e he
    rw [topoAux] at hrun
    split at hrun
    case isTrue hre =>
      have hrem : remaining = [] := List.isEmpty_iff.mp hre
      injection hrun with hord
      subst hord
      subst hrem
      have h2 : e.2 ∈ placed := by
        rcases (hcov e he).2 with h | h
        · exact h
        · cases h
      obtain ⟨h1, hlt⟩ := hQ e he h2
      exact ⟨h1, h2, hlt⟩
    case isFalse hre => cases hrun
  | succ n ih =>
    intro placed remaining ord hnd hdisj hcov hQ hrun e he
    rw [topoAux] at hrun
    split at hrun
    case isTrue hre =>
      have hrem : remaining = [] := List.isEmpty_iff.mp hre
      injection hrun with hord
      subst hord
      subst hrem
      have h2 : e.2 ∈ placed := by
        rcases (hcov e he).2 with h | h
        · exact h
        · cases h
      obtain ⟨h1, hlt⟩ := hQ e he h2
      exact ⟨h1, h2, hlt⟩
    case isFalse hre =>
      split at hrun
      case isTrue hready => cases hrun
      case isFalse hready =>
        have hready' : (readyNodes edges remaining).isEmpty = false :=
          Bool.not_eq_true _ ▸ eq_false_of_ne_true hready
        have hc_ready : chooseNode policy edges placed remaining ∈ readyNodes edges remaining := by
          unfold chooseNode
          exact getD_mod_mem hready' _
        have hc_rem : chooseNode policy edges placed remaining ∈ remaining :=
          (List.mem_filter.mp hc_ready).1
        have hc_isReady :
            isReady edges remaining (chooseNode policy edges placed remaining) = true :=
          (List.mem_filter.mp hc_ready).2
        have hc_not_placed : chooseNode policy edges placed remaining ∉ placed :=
          fun hp => hdisj _ hp hc_rem
        have hnd' : (remaining.erase (chooseNode policy edges placed remaining)).Nodup :=
          hnd.erase _
        have hdisj' : ∀ x ∈ placed ++ [chooseNode policy edges placed remaining],
            x ∉ remaining.erase (chooseNode policy edges placed remaining) := by
          intro x hx hxe
          rcases List.mem_append.mp hx with h1 | h1
          · exact hdisj x h1 (List.mem_of_mem_erase hxe)
          · have hx2 : x = chooseNode policy edges placed remaining := List.mem_singleton.mp h1
            subst hx2
            exact hnd.not_mem_erase hxe
        have hmove : ∀ y, y ∈ remaining →
            y ∈ placed ++ [chooseNode policy edges placed remaining] ∨
              y ∈ remaining.erase (chooseNode policy edges placed remaining) := by
          intro y hy
          by_cases hyc : y = chooseNode policy edges placed remaining
          · exact Or.inl (List.mem_append.mpr (Or.inr (by simp [hyc])))
          · exact Or.inr ((hnd.mem_erase_iff).mpr ⟨hyc, hy⟩)
        have hcov' : ∀ e2 ∈ edges,
            (e2.1 ∈ placed ++ [chooseNode policy edges placed remaining] ∨
              e2.1 ∈ remaining.erase (chooseNode policy edges placed remaining)) ∧
            (e2.2 ∈ placed ++ [chooseNode policy edges placed remaining] ∨
              e2.2 ∈ remaining.erase (chooseNode policy edges placed remaining)) := by
          intro e2 he2
          obtain ⟨h1, h2⟩ := hcov e2 he2
          constructor
          · rcases h1 with h | h
            · exact Or.inl (List.mem_append.mpr (Or.inl h))
            · exact hmove _ h
          · rcases h2 with h | h
            · exact Or.inl (List.mem_append.mpr (Or.inl h))
            · exact hmove _ h
        have hQ' : ∀ e2 ∈ edges, e2.2 ∈ placed ++ [chooseNode policy edges placed remaining] →
            e2.1 ∈ placed ++ [chooseNode policy edges placed remaining] ∧
              orderPosition (placed ++ [chooseNode policy edges placed remaining]) e2.1 <
                orderPosition (placed ++ [chooseNode policy edges placed remaining]) e2.2 := by
          intro e2 he2 hv
          rcases List.mem_append.mp hv with hvp | hvc
          · obtain ⟨hu, hlt⟩ := hQ e2 he2 hvp
            refine ⟨List.mem_append.mpr (Or.inl hu), ?_⟩
            rw [orderPosition_append_left hu, orderPosition_append_left hvp]
            exact hlt
          · have hvc' : e2.2 = chooseNode policy edges placed remaining :=
              List.mem_singleton.mp hvc
            have hall : (decide (e2.2 ≠ chooseNode policy edges placed remaining) ||
                decide (e2.1 ∉ remaining)) = true := by
              have h := hc_isReady
              unfold isReady at h
              exact List.all_eq_true.mp h e2 he2
            rw [Bool.or_eq_true, decide_eq_true_iff, decide_eq_true_iff] at hall
            have hu_not_rem : e2.1 ∉ remaining := by
              rcases hall with h | h
              · exact absurd hvc' h
              · exact h
            have hu_placed : e2.1 ∈ placed := by
              rcases (hcov e2 he2).1 with h | h
              · exact h
              · exact absurd h hu_not_rem
            refine ⟨List.mem_append.mpr (Or.inl hu_placed), ?_⟩
            rw [orderPosition_append_left hu_placed, hvc',
              orderPosition_append_of_not_mem hc_not_placed]
            have hlt : orderPosition placed e2.1 < placed.length :=
              orderPosition_lt_length hu_placed
            have hc0 : orderPosition [chooseNode policy edges placed remaining]
                (chooseNode policy edges placed remaining) = 0 := by
              simp [orderPosition]
            rw [hc0]
            omega
        exact ih (placed ++ [chooseNode policy edges placed remaining])
          (remaining.erase (chooseNode policy edges placed remaining)) ord
          hnd' hdisj' hcov' hQ' hrun e he

/-- C1: under any of the three `ExecutionOrder` policies (DEFAULT/arrival,
PRIORITY_BASED, MEMORY_EFFICIENT), any execution order the sorter produces
places every data edge's producer strictly before its consumer; the policy only
chooses among ready nodes and never affects this ordering property. -/
theorem execution_order_respects_edges (o : ExecutionOrder) (prio liveCost : NodeId → Int)
    (nodes : List NodeId) (edges : List (NodeId × NodeId)) (ord : List NodeId)
    (hnodes : nodes.Nodup)
    (hsrc : ∀ e ∈ edges, e.1 ∈ nodes)
    (hdst : ∀ e ∈ edges, e.2 ∈ nodes)
    (hrun : topoSort (tieBreakFor o prio liveCost) nodes edges = some ord) :
    ∀ e ∈ edges, e.1 ∈ ord ∧ e.2 ∈ ord ∧ orderPosition ord e.1 < orderPosition ord e.2 := by
  unfold topoSort at hrun
  exact topoAux_sound (tieBreakFor o prio liveCost) edges nodes.length [] nodes ord
    hnodes (by intro x hx; cases hx)
    (by intro e he; exact ⟨Or.inr (hsrc e he), Or.inr (hdst e he)⟩)
    (by intro e he hv; cases hv)
    hrun

/-- Witness for C1 at the concrete chain 0 → 1 → 2 under the arrival policy. -/
theorem execution_order_respects_edges_witness :
    (0 : NodeId) ∈ [0, 1, 2] ∧ (1 : NodeId) ∈ [0, 1, 2] ∧
      orderPosition [0, 1, 2] 0 < orderPosition [0, 1, 2] 1 :=
  execution_order_respects_edges .DEFAULT (fun _ => 0) (fun _ => 0) [0, 1, 2]
    [(0, 1), (1, 2)] [0, 1, 2] (by decide) (by decide) (by decide) (by decide)
    (0, 1) (by decide)

/-! ## Memory planner (spec §4.4)

Modelled from the spec: the interval-based reuse algorithm of the memory
planner (linear-scan style). Only its configuration knob
`SessionOptions::enable_mem_reuse` is part of this snapshot. -/

/-- Modelled from the spec: a Value's live interval `[first-write, last-read]`
relative to the finalized execution order, with its buffer size. -/
structure ValueLifetime where
  firstWrite : Nat
  lastRead : Nat
  size : Nat
deriving DecidableEq

/-- Two live intervals overlap (their closed intervals intersect). -/
def intervalsOverlap (a b : ValueLifetime) : Prop :=
  a.firstWrite ≤ b.lastRead ∧ b.firstWrite ≤ a.lastRead

instance (a b : ValueLifetime) : Decidable (intervalsOverlap a b) :=
  inferInstanceAs (Decidable (_ ∧ _))

/-- An arena slot: its size and the last-read time of its current occupant. -/
structure ArenaSlot where
  size : Nat
  lastEnd : Nat
deriving DecidableEq

def defaultSlot : ArenaSlot := ⟨0, 0⟩

def defaultValue : ValueLifetime := ⟨0, 0, 0⟩

/-- A slot is free for value `v` when its occupant's interval has already ended
before `v`'s first write and its size is adequate. -/
def slotFree (v : ValueLifetime) (s : ArenaSlot) : Bool :=
  decide (s.lastEnd < v.firstWrite) && decide (v.size ≤ s.size)

/-- Indices of the currently-free adequate slots. -/
def freeSlotIdxs (v : ValueLifetime) (slots : List ArenaSlot) : List Nat :=
  (List.range slots.length).filter fun k => slotFree v (slots.getD k defaultSlot)

/-- Among candidate slot indices, keep one of smallest size. -/
def pickSmallest (slots : List ArenaSlot) : List Nat → Option Nat
  | [] => none
  | k :: ks => some (ks.foldl (fun b k2 =>
      if (slots.getD k2 defaultSlot).size < (slots.getD b defaultSlot).size then k2 else b) k)

/-- Modelled from the spec: the smallest currently-free slot of adequate size,
if any. -/
def findReuseSlot (v : ValueLifetime) (slots : List ArenaSlot) : Option Nat :=
  pickSmallest slots (freeSlotIdxs v slots)

/-- Modelled from the spec: process values in interval-start order; with reuse
enabled assign the smallest free adequate slot, else grow the arena by one
slot; with reuse disabled always grow the arena. Returns a slot index per
value. -/
def planAux (reuse : Bool) : List ValueLifetime → List ArenaSlot → List Nat → List Nat
  | [], _, acc => acc
  | v :: rest, slots, acc =>
    match (if reuse then findReuseSlot v slots else none) with
    | some k =>
      planAux reuse rest (slots.set k ⟨(slots.getD k defaultSlot).size, v.lastRead⟩) (acc ++ [k])
    | none =>
      planAux reuse rest (slots ++ [⟨v.size, v.lastRead⟩]) (acc ++ [slots.length])

/-- The memory plan: slot index assigned to each value, in value order. -/
def memPlan (reuse : Bool) (vs : List ValueLifetime) : List Nat :=
  planAux reuse vs [] []

/-- Planner state invariant: one slot per processed value, each assigned slot in
range and its recorded `lastEnd` at or past the value's last read. -/
def PlanInv (done : List ValueLifetime) (slots : List ArenaSlot) (acc : List Nat) : Prop :=
  acc.length = done.length ∧
  ∀ i, i < acc.length →
    acc.getD i 0 < slots.length ∧
    (done.getD i defaultValue).lastRead ≤ (slots.getD (acc.getD i 0) defaultSlot).lastEnd

/-- Values with overlapping live intervals sit in distinct slots. -/
def SlotsSeparated (done : List ValueLifetime) (acc : List Nat) : Prop :=
  ∀ i j, i < j → j < acc.length →
    intervalsOverlap (done.getD i defaultValue) (done.getD j defaultValue) →
    acc.getD i 0 ≠ acc.getD j 0

theorem foldl_choice_mem {f : Nat → Nat → Nat} (hf : ∀ b k, f b k = b ∨ f b k = k) :
    ∀ (ks : List Nat) (b : Nat), ks.foldl f b = b ∨ ks.foldl f b ∈ ks := by
  intro ks
  induction ks with
  | nil => intro b; exact Or.inl rfl
  | cons k t ih =>
    intro b
    rw [List.foldl_cons]
    rcases ih (f b k) with h | h
    · rcases hf b k with h2 | h2
      · rw [h, h2]; exact Or.inl rfl
      · rw [h, h2]; exact Or.inr (List.mem_cons_self _ _)
    · exact Or.inr (List.mem_cons_of_mem _ h)

theorem findReuseSlot_spec {v : ValueLifetime} {slots : List ArenaSlot} {k : Nat}
    (h : findReuseSlot v slots = some k) :
    k < slots.length ∧ (slots.getD k defaultSlot).lastEnd < v.firstWrite ∧
      v.size ≤ (slots.getD k defaultSlot).size := by
  have hmem : k ∈ freeSlotIdxs v slots := by
    unfold findReuseSlot pickSmallest at h
    cases hfs : freeSlotIdxs v slots with
    | nil => rw [hfs] at h; cases h
    | cons k0 ks =>
      rw [hfs] at h
      injection h with hk
      have hf : ∀ (b2 k2 : Nat),
          (if (slots.getD k2 defaultSlot).size < (slots.getD b2 defaultSlot).size
            then k2 else b2) = b2 ∨
          (if (slots.getD k2 defaultSlot).size < (slots.getD b2 defaultSlot).size
            then k2 else b2) = k2 := by
        intro b2 k2
        by_cases hc : (slots.getD k2 defaultSlot).size < (slots.getD b2 defaultSlot).size
        · exact Or.inr (if_pos hc)
        · exact Or.inl (if_neg hc)
      rcases foldl_choice_mem hf ks k0 with h2 | h2
      · rw [hk] at h2; rw [h2]; exact List.mem_cons_self _ _
      · rw [hk] at h2; exact List.mem_cons_of_mem _ h2
  unfold freeSlotIdxs at hmem
  have h1 := (List.mem_filter.mp hmem).1
  have h2 := (List.mem_filter.mp hmem).2
  unfold slotFree at h2
  rw [Bool.and_eq_true, decide_eq_true_iff, decide_eq_true_iff] at h2
  exact ⟨List.mem_range.mp h1, h2.1, h2.2⟩

theorem getD_set_self {slots : List ArenaSlot} {k : Nat} (hk : k < slots.length)
    (a : ArenaSlot) : (slots.set k a).getD k defaultSlot = a := by
  have hk2 : k < (slots.set k a).length := by simpa using hk
  rw [List.getD_eq_getElem _ _ hk2]
  exact List.getElem_set_self hk2

theorem getD_set_ne {slots : List ArenaSlot} {k j : Nat} (hne : k ≠ j) (a : ArenaSlot) :
    (slots.set k a).getD j defaultSlot = slots.getD j defaultSlot := by
  by_cases hj : j < slots.length
  · have hj2 : j < (slots.set k a).length := by simpa using hj
    rw [List.getD_eq_getElem _ _ hj2, List.getD_eq_getElem _ _ hj]
    exact List.getElem_set_ne hne hj2
  · have hj' : slots.length ≤ j := Nat.le_of_not_lt hj
    rw [List.getD_eq_default _ _ (by simpa using hj'), List.getD_eq_default _ _ hj']

theorem getD_append_last {α : Type} {l : List α} {x : α} {d : α} :
    (l ++ [x]).getD l.length d = x := by
  rw [List.getD_append_right _ _ _ _ (Nat.le_refl _)]
  simp

theorem planAux_separates :
    ∀ (vs : List ValueLifetime) (slots : List ArenaSlot) (acc : List Nat)
      (done : List ValueLifetime),
      (∀ v ∈ vs, v.firstWrite ≤ v.lastRead) →
      PlanInv done slots acc → SlotsSeparated done acc →
      (planAux true vs slots acc).length = done.length + vs.length ∧
      SlotsSeparated (done ++ vs) (planAux true vs slots acc) := by
  intro vs
  induction vs with
  | nil =>
    intro slots acc done hwf hinv hsep
    constructor
    · simpa [planAux] using hinv.1
    · simpa [planAux] using hsep
  | cons v rest ih =>
    intro slots acc done hwf hinv hsep
    have hwfv : v.firstWrite ≤ v.lastRead := hwf v (List.mem_cons_self _ _)
    have hwfrest : ∀ u ∈ rest, u.firstWrite ≤ u.lastRead :=
      fun u hu => hwf u (List.mem_cons_of_mem _ hu)
    obtain ⟨hlen, hslot⟩ := hinv
    cases hfind : findReuseSlot v slots with
    | some k =>
      obtain ⟨hk, hkfree, hksize⟩ := findReuseSlot_spec hfind
      have heq : planAux true (v :: rest) slots acc =
          planAux true rest (slots.set k ⟨(slots.getD k defaultSlot).size, v.lastRead⟩)
            (acc ++ [k]) := by
        simp [planAux, hfind]
      rw [heq]
      have hinv' : PlanInv (done ++ [v])
          (slots.set k ⟨(slots.getD k defaultSlot).size, v.lastRead⟩) (acc ++ [k]) := by
        constructor
        · simp [hlen]
        · intro i hi
          rw [List.length_append, List.length_singleton] at hi
          by_cases hilt : i < acc.length
          · rw [List.getD_append _ _ _ _ hilt, List.getD_append _ _ _ _ (hlen ▸ hilt)]
            obtain ⟨hb, hle⟩ := hslot i hilt
            constructor
            · simpa using hb
            · by_cases hak : acc.getD i 0 = k
              · rw [hak, getD_set_self hk]
                rw [hak] at hle
                show (done.getD i defaultValue).lastRead ≤ v.lastRead
                omega
              · rw [getD_set_ne (Ne.symm hak)]
                exact hle
          · have hieq : i = acc.length := by omega
            rw [hieq, getD_append_last, hlen, getD_append_last]
            constructor
            · simpa using hk
            · rw [getD_set_self hk]
      have hsep' : SlotsSeparated (done ++ [v]) (acc ++ [k]) := by
        intro i j hij hj hov
        rw [List.length_append, List.length_singleton] at hj
        by_cases hjlt : j < acc.length
        · have hilt : i < acc.length := Nat.lt_trans hij hjlt
          rw [List.getD_append _ _ _ _ hilt, List.getD_append _ _ _ _ hjlt]
          rw [List.getD_append _ _ _ _ (hlen ▸ hilt), List.getD_append _ _ _ _ (hlen ▸ hjlt)] at hov
          exact hsep i j hij hjlt hov
        · have hjeq : j = acc.length := by omega
          have hilt : i < acc.length := by omega
          rw [hjeq, getD_append_last, List.getD_append _ _ _ _ hilt]
          rw [hjeq, hlen, getD_append_last, List.getD_append _ _ _ _ (hlen ▸ hilt)] at hov
          intro hak
          obtain ⟨hb, hle⟩ := hslot i hilt
          rw [hak] at hle
          obtain ⟨hov1, hov2⟩ := hov
          omega
      obtain ⟨hL, hS⟩ := ih _ _ _ hwfrest hinv' hsep'
      constructor
      · rw [hL]
        simp only [List.length_append, List.length_singleton, List.length_cons,
          List.length_nil]
        omega
      · have hassoc : (done ++ [v]) ++ rest = done ++ v :: rest := by simp
        rwa [hassoc] at hS
    | none =>
      have heq : planAux true (v :: rest) slots acc =
          planAux true rest (slots ++ [⟨v.size, v.lastRead⟩]) (acc ++ [slots.length]) := by
        simp [planAux, hfind]
      rw [heq]
      have hinv' : PlanInv (done ++ [v]) (slots ++ [⟨v.size, v.lastRead⟩])
          (acc ++ [slots.length]) := by
        constructor
        · simp [hlen]
        · intro i hi
          rw [List.length_append, List.length_singleton] at hi
          by_cases hilt : i < acc.length
          · rw [List.getD_append _ _ _ _ hilt, List.getD_append _ _ _ _ (hlen ▸ hilt)]
            obtain ⟨hb, hle⟩ := hslot i hilt
            constructor
            · simp only [List.length_append, List.length_singleton]
              omega
            · rw [List.getD_append _ _ _ _ hb]
              exact hle
          · have hieq : i = acc.length := by omega
            rw [hieq, getD_append_last, hlen, getD_append_last]
            constructor
            · simp only [List.length_append, List.length_singleton]
              omega
            · rw [getD_append_last]
      have hsep' : SlotsSeparated (done ++ [v]) (acc ++ [slots.length]) := by
        intro i j hij hj hov
        rw [List.length_append, List.length_singleton] at hj
        by_cases hjlt : j < acc.length
        · have hilt : i < acc.length := Nat.lt_trans hij hjlt
          rw [List.getD_append _ _ _ _ hilt, List.getD_append _ _ _ _ hjlt]
          rw [List.getD_append _ _ _ _ (hlen ▸ hilt), List.getD_append _ _ _ _ (hlen ▸ hjlt)] at hov
          exact hsep i j hij hjlt hov
        · have hjeq : j = acc.length := by omega
          have hilt : i < acc.length := by omega
          rw [hjeq, getD_append_last, List.getD_append _ _ _ _ hilt]
          exact Nat.ne_of_lt (hslot i hilt).1
      obtain ⟨hL, hS⟩ := ih _ _ _ hwfrest hinv' hsep'
      constructor
      · rw [hL]
        simp only [List.length_append, List.length_singleton, List.length_cons,
          List.length_nil]
        omega
      · have hassoc : (done ++ [v]) ++ rest = done ++ v :: rest := by simp
        rwa [hassoc] at hS

theorem planAux_no_reuse :
    ∀ (vs : List ValueLifetime) (slots : List ArenaSlot) (acc : List Nat),
      planAux false vs slots acc = acc ++ List.range' slots.length vs.length := by
  intro vs
  induction vs with
  | nil => intro slots acc; simp [planAux]
  | cons v rest ih =>
    intro slots acc
    have heq : planAux false (v :: rest) slots acc =
        planAux false rest (slots ++ [⟨v.size, v.lastRead⟩]) (acc ++ [slots.length]) := rfl
    rw [heq, ih]
    simp [List.range'_succ]

/-- C2: for any memory plan the planner produces, two Values whose live
intervals overlap are assigned distinct (hence disjoint) slots; and with memory
reuse disabled (`SessionOptions::enable_mem_reuse = false`) every Value
receives its own fresh slot (value `i` gets slot `i`, all pairwise distinct). -/
theorem mem_planner_slots (vs : List ValueLifetime)
    (hwf : ∀ v ∈ vs, v.firstWrite ≤ v.lastRead) :
    (∀ i j, i ≠ j → i < vs.length → j < vs.length →
      intervalsOverlap (vs.getD i defaultValue) (vs.getD j defaultValue) →
      (memPlan true vs).getD i 0 ≠ (memPlan true vs).getD j 0) ∧
    memPlan false vs = List.range vs.length := by
  constructor
  · have hinv0 : PlanInv [] [] [] := ⟨rfl, fun i hi => absurd hi (by simp)⟩
    have hsep0 : SlotsSeparated [] [] := fun i j hij hj hov => absurd hj (by simp)
    obtain ⟨hL, hS⟩ := planAux_separates vs [] [] [] hwf hinv0 hsep0
    rw [List.nil_append] at hS
    have hL0 : (planAux true vs [] []).length = vs.length := by simpa using hL
    intro i j hij hi hj hov
    rcases Nat.lt_or_ge i j with hlt | hge
    · exact hS i j hlt (by rw [hL0]; exact hj) hov
    · have hji : j < i := Nat.lt_of_le_of_ne hge (Ne.symm hij)
      exact Ne.symm (hS j i hji (by rw [hL0]; exact hi) ⟨hov.2, hov.1⟩)
  · unfold memPlan
    rw [planAux_no_reuse]
    simp [List.range_eq_range']

/-- Witness for C2 at two concrete overlapping values: they receive distinct
slots. -/
theorem mem_planner_slots_witness :
    (memPlan true [⟨0, 2, 4⟩, ⟨1, 3, 4⟩]).getD 0 0 ≠
      (memPlan true [⟨0, 2, 4⟩, ⟨1, 3, 4⟩]).getD 1 0 :=
  (mem_planner_slots [⟨0, 2, 4⟩, ⟨1, 3, 4⟩] (by decide)).1 0 1
    (by decide) (by decide) (by decide) (by decide)

/-! ## Session options (core/framework/session_options.h) -/

/-- `ExecutionMode` from the C API: sequential or parallel executor. -/
inductive ExecutionMode where
  | ORT_SEQUENTIAL
  | ORT_PARALLEL
deriving DecidableEq

/-- `TransformerLevel` from core/optimizer/graph_transformer_level.h. -/
inductive TransformerLevel where
  | Default
  | Level1
  | Level2
  | Level3
deriving DecidableEq

/-- `OrtExecutionProviderDevicePolicy` from the C API: the provider selection
policies named by the spec. -/
inductive OrtExecutionProviderDevicePolicy where
  | DEFAULT
  | PREFER_CPU
  | PREFER_NPU
  | PREFER_GPU
  | MAX_PERFORMANCE
  | MAX_EFFICIENCY
  | MIN_OVERALL_POWER
deriving DecidableEq

/-- `EpSelectionPolicy` (session_options.h); the C function-pointer delegate and
its opaque state are omitted. -/
structure EpSelectionPolicy where
  enable : Bool
  policy : OrtExecutionProviderDevicePolicy
deriving DecidableEq

/-- `EpContextModelGenerationOptions::ActionIfNoCompiledNodes`
(session_options.h, underlying values 0, 1, 2). -/
inductive ActionIfNoCompiledNodes where
  | kDontGenerateModel
  | kGenerateModel
  | kReturnError
deriving DecidableEq

/-- `EpContextModelGenerationOptions` (session_options.h); the raw output-buffer
pointers and the allocator handle are omitted. -/
structure EpContextModelGenerationOptions where
  enable : Bool
  error_if_output_file_exists : Bool
  action_if_no_compiled_nodes : ActionIfNoCompiledNodes
  embed_ep_context_in_model : Bool
  output_model_file_path : String
  output_external_initializers_file_path : String
  output_external_initializer_size_threshold : Nat
deriving DecidableEq

/-- The default member initializers of `EpContextModelGenerationOptions`. -/
def defaultEpContextGenOptions : EpContextModelGenerationOptions where
  enable := false
  error_if_output_file_exists := true
  action_if_no_compiled_nodes := .kDontGenerateModel
  embed_ep_context_in_model := false
  output_model_file_path := ""
  output_external_initializers_file_path := ""
  output_external_initializer_size_threshold := 0

/-- `ExecutionPriority` (session_options.h), spelled as in the source. -/
inductive ExecutionPriority where
  | GLOBAL_HIGHT
  | LOCAL_HIGH
  | DEFAULT
  | LOCAL_LOW
  | GLOBAL_LOW
deriving DecidableEq

/-- The underlying integer of each `ExecutionPriority` band. -/
def ExecutionPriority.toInt : ExecutionPriority → Int
  | .GLOBAL_HIGHT => -100
  | .LOCAL_HIGH => -10
  | .DEFAULT => 0
  | .LOCAL_LOW => 10
  | .GLOBAL_LOW => 100

/-- The store of shared cancellation flags: `std::shared_ptr<std::atomic_bool>`
targets are modelled as heap cells addressed by `Nat`; a `SessionOptions` holds
an address, and copying the options copies the address (the `shared_ptr`), not
the cell. -/
abbrev FlagHeap := Nat → Bool

/-- `SessionOptions` (session_options.h). String/path fields, thread-pool
parameters and C callback pointers are omitted; `load_cancellation_flag` is the
heap address of the shared flag cell. -/
structure SessionOptions where
  execution_mode : ExecutionMode
  execution_order : ExecutionOrder
  enable_profiling : Bool
  enable_mem_pattern : Bool
  enable_mem_reuse : Bool
  enable_cpu_mem_arena : Bool
  session_log_severity_level : Int
  session_log_verbosity_level : Int
  max_num_graph_transformation_steps : Nat
  graph_optimization_level : TransformerLevel
  use_per_session_threads : Bool
  thread_pool_allow_spinning : Bool
  use_deterministic_compute : Bool
  load_cancellation_flag : Nat
  ep_selection_policy : EpSelectionPolicy
  has_explicit_ep_context_gen_options : Bool
  ep_context_gen_options : EpContextModelGenerationOptions

/-- `SessionOptions::SetLoadCancellationFlag`: writes through the shared
pointer, returning the updated heap. -/
def SessionOptions.SetLoadCancellationFlag (s : SessionOptions) (h : FlagHeap)
    (v : Bool) : FlagHeap :=
  fun r => if r = s.load_cancellation_flag then v else h r

/-- `SessionOptions::IsLoadCancellationFlagSet`: reads through the shared
pointer. -/
def SessionOptions.IsLoadCancellationFlagSet (s : SessionOptions) (h : FlagHeap) : Bool :=
  h s.load_cancellation_flag

/-- The implicitly-generated copy of `SessionOptions`: every member is copied;
copying the `shared_ptr` member copies the address, never the pointee. -/
def copySessionOptions (s : SessionOptions) : SessionOptions where
  execution_mode := s.execution_mode
  execution_order := s.execution_order
  enable_profiling := s.enable_profiling
  enable_mem_pattern := s.enable_mem_pattern
  enable_mem_reuse := s.enable_mem_reuse
  enable_cpu_mem_arena := s.enable_cpu_mem_arena
  session_log_severity_level := s.session_log_severity_level
  session_log_verbosity_level := s.session_log_verbosity_level
  max_num_graph_transformation_steps := s.max_num_graph_transformation_steps
  graph_optimization_level := s.graph_optimization_level
  use_per_session_threads := s.use_per_session_threads
  thread_pool_allow_spinning := s.thread_pool_allow_spinning
  use_deterministic_compute := s.use_deterministic_compute
  load_cancellation_flag := s.load_cancellation_flag
  ep_selection_policy := s.ep_selection_policy
  has_explicit_ep_context_gen_options := s.has_explicit_ep_context_gen_options
  ep_context_gen_options := s.ep_context_gen_options

/-- A configuration handle derived from `s` by a chain of `n` copies. -/
def copySessionOptionsN : Nat → SessionOptions → SessionOptions
  | 0, s => s
  | n + 1, s => copySessionOptions (copySessionOptionsN n s)

/-- Default construction of `SessionOptions`: the member initializers of the
struct, with `load_cancellation_flag = std::make_shared<std::atomic_bool>(false)`
modelled as initializing a fresh heap cell at `addr` to `false`. -/
def mkSessionOptions (h : FlagHeap) (addr : Nat) : FlagHeap × SessionOptions :=
  (fun r => if r = addr then false else h r,
   { execution_mode := .ORT_SEQUENTIAL
     execution_order := .DEFAULT
     enable_profiling := false
     enable_mem_pattern := true
     enable_mem_reuse := true
     enable_cpu_mem_arena := true
     session_log_severity_level := -1
     session_log_verbosity_level := 0
     max_num_graph_transformation_steps := 10
     graph_optimization_level := .Level3
     use_per_session_threads := true
     thread_pool_allow_spinning := true
     use_deterministic_compute := false
     load_cancellation_flag := addr
     ep_selection_policy := { enable := false, policy := .DEFAULT }
     has_explicit_ep_context_gen_options := false
     ep_context_gen_options := defaultEpContextGenOptions })

/-- C3: setting the load-cancellation flag through a `SessionOptions` and then
querying it returns the value just set; and any handle derived by any chain of
copies shares the same flag cell (the address is copied, never the pointee), so
the set is observed through every derived handle. -/
theorem load_cancellation_flag_shared (h : FlagHeap) (s : SessionOptions) (v : Bool)
    (n : Nat) :
    (copySessionOptionsN n s).IsLoadCancellationFlagSet
        (s.SetLoadCancellationFlag h v) = v ∧
    (copySessionOptionsN n s).load_cancellation_flag = s.load_cancellation_flag := by
  have hflag : ∀ m, (copySessionOptionsN m s).load_cancellation_flag =
      s.load_cancellation_flag := by
    intro m
    induction m with
    | zero => rfl
    | succ k ih => simpa [copySessionOptionsN, copySessionOptions] using ih
  constructor
  · unfold SessionOptions.IsLoadCancellationFlagSet SessionOptions.SetLoadCancellationFlag
    rw [hflag n]
    simp
  · exact hflag n

/-- C9: a freshly default-constructed `SessionOptions` starts with the
cancellation flag unset and the documented defaults: sequential execution mode,
default execution order, memory pattern/reuse/arena enabled, 10 transformation
steps, optimization level 3, non-deterministic compute, and no
execution-provider selection policy enabled. -/
theorem default_session_options (h : FlagHeap) (addr : Nat) :
    (mkSessionOptions h addr).2.IsLoadCancellationFlagSet (mkSessionOptions h addr).1 =
      false ∧
    (mkSessionOptions h addr).2.execution_mode = ExecutionMode.ORT_SEQUENTIAL ∧
    (mkSessionOptions h addr).2.execution_order = ExecutionOrder.DEFAULT ∧
    (mkSessionOptions h addr).2.enable_mem_pattern = true ∧
    (mkSessionOptions h addr).2.enable_mem_reuse = true ∧
    (mkSessionOptions h addr).2.enable_cpu_mem_arena = true ∧
    (mkSessionOptions h addr).2.max_num_graph_transformation_steps = 10 ∧
    (mkSessionOptions h addr).2.graph_optimization_level = TransformerLevel.Level3 ∧
    (mkSessionOptions h addr).2.use_deterministic_compute = false ∧
    (mkSessionOptions h addr).2.ep_selection_policy.enable = false := by
  refine ⟨?_, rfl, rfl, rfl, rfl, rfl, rfl, rfl, rfl, rfl⟩
  unfold SessionOptions.IsLoadCancellationFlagSet mkSessionOptions
  simp

/-! ## Transformer pipeline (spec §4.1)

Modelled from the spec: the bounded fixpoint loop that re-applies the ordered
pass list. Each pass follows the contract of `GraphTransformer::ApplyImpl`
(e.g. `GroupQueryAttentionFusion::ApplyImpl`): it returns the rewritten graph
and whether it modified it. -/

/-- One application of the full ordered pass list: threads the graph through
every pass and reports whether any pass modified it. -/
def applyAllPasses {G : Type} : List (G → G × Bool) → G → G × Bool
  | [], g => (g, false)
  | p :: ps, g =>
    ((applyAllPasses ps (p g).1).1, (p g).2 || (applyAllPasses ps (p g).1).2)

/-- Modelled from the spec: re-apply the full pass list until an application
reports no modification or the step budget is exhausted. -/
def applyTransformers {G : Type} (passes : List (G → G × Bool)) : Nat → G → G
  | 0, g => g
  | n + 1, g =>
    if (applyAllPasses passes g).2
    then applyTransformers passes n (applyAllPasses passes g).1
    else (applyAllPasses passes g).1

/-- Number of pass-list applications the loop performs within budget `n`. -/
def transformationSteps {G : Type} (passes : List (G → G × Bool)) : Nat → G → Nat
  | 0, _ => 0
  | n + 1, g =>
    if (applyAllPasses passes g).2
    then 1 + transformationSteps passes n (applyAllPasses passes g).1
    else 1

theorem applyAllPasses_no_change {G : Type} :
    ∀ (passes : List (G → G × Bool)),
      (∀ p ∈ passes, ∀ x, (p x).2 = false → (p x).1 = x) →
      ∀ g, (applyAllPasses passes g).2 = false → (applyAllPasses passes g).1 = g := by
  intro passes
  induction passes with
  | nil => intro _ g _; rfl
  | cons p ps ih =>
    intro hhonest g h
    have hsnd : ((p g).2 || (applyAllPasses ps (p g).1).2) = false := h
    obtain ⟨h1, h2⟩ := Bool.or_eq_false_iff.mp hsnd
    have hp : (p g).1 = g := hhonest p (List.mem_cons_self _ _) g h1
    have ihp := ih (fun q hq x hx => hhonest q (List.mem_cons_of_mem _ hq) x hx) (p g).1 h2
    show (applyAllPasses ps (p g).1).1 = g
    rw [ihp, hp]

theorem applyTransformers_bounded {G : Type} (passes : List (G → G × Bool))
    (hhonest : ∀ p ∈ passes, ∀ x, (p x).2 = false → (p x).1 = x) :
    ∀ (n : Nat) (g : G),
      transformationSteps passes n g ≤ n ∧
      (transformationSteps passes n g < n →
        (applyAllPasses passes (applyTransformers passes n g)).2 = false) := by
  intro n
  induction n with
  | zero => intro g; exact ⟨Nat.le_refl 0, fun hlt => absurd hlt (Nat.lt_irrefl 0)⟩
  | succ m ih =>
    intro g
    by_cases hmod : (applyAllPasses passes g).2 = true
    · constructor
      · simp only [transformationSteps]
        rw [if_pos hmod]
        have := (ih (applyAllPasses passes g).1).1
        omega
      · intro hlt
        simp only [transformationSteps] at hlt
        rw [if_pos hmod] at hlt
        simp only [applyTransformers]
        rw [if_pos hmod]
        exact (ih (applyAllPasses passes g).1).2 (by omega)
    · have hmod' : (applyAllPasses passes g).2 = false :=
        Bool.not_eq_true _ ▸ eq_false_of_ne_true hmod
      constructor
      · simp only [transformationSteps]
        rw [if_neg hmod]
        omega
      · intro hlt
        simp only [applyTransformers]
        rw [if_neg hmod]
        rw [applyAllPasses_no_change passes hhonest g hmod']
        exact hmod'

/-- C4: the transformer pipeline is a bounded fixpoint iteration: with each
pass reporting via its modified flag whether it changed the graph (reporting
false only when it left the graph unchanged), the loop performs at most
`SessionOptions::max_num_graph_transformation_steps` applications of the full
pass list, and when it stops before exhausting that budget, re-applying the
pass list to the result reports no modification. -/
theorem transformer_pipeline_bounded {G : Type} (s : SessionOptions)
    (passes : List (G → G × Bool)) (g : G)
    (hhonest : ∀ p ∈ passes, ∀ x, (p x).2 = false → (p x).1 = x) :
    transformationSteps passes s.max_num_graph_transformation_steps g ≤
      s.max_num_graph_transformation_steps ∧
    (transformationSteps passes s.max_num_graph_transformation_steps g <
        s.max_num_graph_transformation_steps →
      (applyAllPasses passes
        (applyTransformers passes s.max_num_graph_transformation_steps g)).2 = false) :=
  applyTransformers_bounded passes hhonest s.max_num_graph_transformation_steps g

/-- Witness for C4 with one never-modifying pass and the default step budget. -/
theorem transformer_pipeline_bounded_witness :
    transformationSteps [fun n : Nat => (n, false)]
        (mkSessionOptions (fun _ => false) 0).2.max_num_graph_transformation_steps 0 ≤
      (mkSessionOptions (fun _ => false) 0).2.max_num_graph_transformation_steps :=
  (transformer_pipeline_bounded (mkSessionOptions (fun _ => false) 0).2
    [fun n : Nat => (n, false)] 0
    (by intro p hp x hx; rw [List.mem_singleton] at hp; subst hp; rfl)).1

/-! ## WebNN execution provider
(core/providers/webnn/webnn_execution_provider.h) -/

/-- `DataLayout` of the provider interface. -/
inductive DataLayout where
  | NCHW
  | NHWC
deriving DecidableEq

/-- `FusionStyle` of the provider interface: spec §4.3 style (b) replaces the
claimed nodes by one opaque fused node (`Function`); style (a) compiles from a
filtered view of the original graph (`FilteredGraphViewer`). -/
inductive FusionStyle where
  | Function
  | FilteredGraphViewer
deriving DecidableEq

/-- The provider capability surface the claims depend on: fusion style,
concurrent-invocation support, preferred layout. -/
structure ExecutionProviderIface where
  GetFusionStyle : FusionStyle
  ConcurrentRunSupported : Bool
  GetPreferredLayout : DataLayout

/-- `WebNNExecutionProvider`: its overrides as written in the header
(`GetFusionStyle` returns `FilteredGraphViewer`; `ConcurrentRunSupported`
returns `false`); the preferred layout is set from the device flags at
construction. -/
def WebNNExecutionProvider (preferred_layout : DataLayout) : ExecutionProviderIface where
  GetFusionStyle := .FilteredGraphViewer
  ConcurrentRunSupported := false
  GetPreferredLayout := preferred_layout

/-- Modelled from the spec: whether a fusion style physically replaces the
claimed nodes by one opaque fused node before compilation. -/
def physicallyRewritesGraph : FusionStyle → Bool
  | .Function => true
  | .FilteredGraphViewer => false

/-- Modelled from the spec: the executor funnels calls into a provider through
a per-provider serialization point exactly when the provider does not support
concurrent invocation, regardless of the scheduling strategy. -/
def requiresSerializedDispatch (p : ExecutionProviderIface) (_mode : ExecutionMode) : Bool :=
  !p.ConcurrentRunSupported

/-- C5: every `WebNNExecutionProvider` reports `ConcurrentRunSupported = false`,
so under either scheduling strategy the executor must serialize calls into
it. -/
theorem webnn_no_concurrent_runs (layout : DataLayout) (mode : ExecutionMode) :
    (WebNNExecutionProvider layout).ConcurrentRunSupported = false ∧
    requiresSerializedDispatch (WebNNExecutionProvider layout) mode = true :=
  ⟨rfl, rfl⟩

/-- C6: every `WebNNExecutionProvider` reports fusion style
`FilteredGraphViewer` — style (a): compiled from a filtered view of the
original graph, with no physical replacement of the claimed nodes. -/
theorem webnn_fusion_style (layout : DataLayout) :
    (WebNNExecutionProvider layout).GetFusionStyle = FusionStyle.FilteredGraphViewer ∧
    physicallyRewritesGraph (WebNNExecutionProvider layout).GetFusionStyle = false :=
  ⟨rfl, rfl⟩

/-- C7: the five `ExecutionPriority` bands carry the underlying values
-100, -10, 0, 10, 100, are strictly ordered from global-high to global-low
(smaller value = higher scheduling priority), and comparison of band values is
a trichotomous — hence valid — tie-break relation. -/
theorem execution_priority_bands_ordered :
    (ExecutionPriority.GLOBAL_HIGHT.toInt < ExecutionPriority.LOCAL_HIGH.toInt ∧
      ExecutionPriority.LOCAL_HIGH.toInt < ExecutionPriority.DEFAULT.toInt ∧
      ExecutionPriority.DEFAULT.toInt < ExecutionPriority.LOCAL_LOW.toInt ∧
      ExecutionPriority.LOCAL_LOW.toInt < ExecutionPriority.GLOBAL_LOW.toInt) ∧
    (ExecutionPriority.GLOBAL_HIGHT.toInt = -100 ∧
      ExecutionPriority.LOCAL_HIGH.toInt = -10 ∧
      ExecutionPriority.DEFAULT.toInt = 0 ∧
      ExecutionPriority.LOCAL_LOW.toInt = 10 ∧
      ExecutionPriority.GLOBAL_LOW.toInt = 100) ∧
    (∀ a b : ExecutionPriority, a = b ∨ a.toInt < b.toInt ∨ b.toInt < a.toInt) := by
  refine ⟨by decide, by decide, ?_⟩
  intro a b
  cases a <;> cases b <;> decide

/-- Outcome of compiled-model emission when zero compiled regions were
produced. -/
inductive CompileNoNodesOutcome where
  | successNoModel
  | successWithModel
  | errorReturned
deriving DecidableEq

/-- Modelled from the spec: the behavior of compiled-model emission when the
model has zero compiled (EPContext) nodes, per the configured
`ActionIfNoCompiledNodes`. -/
def outcomeWhenNoCompiledNodes (opts : EpContextModelGenerationOptions) :
    CompileNoNodesOutcome :=
  match opts.action_if_no_compiled_nodes with
  | .kDontGenerateModel => .successNoModel
  | .kGenerateModel => .successWithModel
  | .kReturnError => .errorReturned

/-- C8: with default `EpContextModelGenerationOptions` a compilation producing
zero compiled regions returns success and emits no model
(`kDontGenerateModel`); the other configured actions give emit-anyway
(`kGenerateModel`) and error (`kReturnError`); and by default an existing
output file is an error (`error_if_output_file_exists = true`). -/
theorem ep_context_no_compiled_nodes_defaults :
    defaultEpContextGenOptions.action_if_no_compiled_nodes =
      ActionIfNoCompiledNodes.kDontGenerateModel ∧
    defaultEpContextGenOptions.error_if_output_file_exists = true ∧
    outcomeWhenNoCompiledNodes defaultEpContextGenOptions =
      CompileNoNodesOutcome.successNoModel ∧
    (∀ opts : EpContextModelGenerationOptions,
      opts.action_if_no_compiled_nodes = ActionIfNoCompiledNodes.kGenerateModel →
        outcomeWhenNoCompiledNodes opts = CompileNoNodesOutcome.successWithModel) ∧
    (∀ opts : EpContextModelGenerationOptions,
      opts.action_if_no_compiled_nodes = ActionIfNoCompiledNodes.kReturnError →
        outcomeWhenNoCompiledNodes opts = CompileNoNodesOutcome.errorReturned) := by
  refine ⟨rfl, rfl, rfl, ?_, ?_⟩
  · intro opts hact
    unfold outcomeWhenNoCompiledNodes
    rw [hact]
  · intro opts hact
    unfold outcomeWhenNoCompiledNodes
    rw [hact]

/-- Witness for C8 at a concrete options value configured to emit anyway. -/
theorem ep_context_no_compiled_nodes_defaults_witness :
    outcomeWhenNoCompiledNodes
      { enable := true
        error_if_output_file_exists := true
        action_if_no_compiled_nodes := ActionIfNoCompiledNodes.kGenerateModel
        embed_ep_context_in_model := false
        output_model_file_path := ""
        output_external_initializers_file_path := ""
        output_external_initializer_size_threshold := 0 } =
      CompileNoNodesOutcome.successWithModel :=
  ep_context_no_compiled_nodes_defaults.2.2.2.1 _ rfl

/-- The underlying integer of each `ExecutionOrder` enumerator. -/
def executionOrderVal : ExecutionOrder → Int
  | .DEFAULT => 0
  | .PRIORITY_BASED => 1
  | .MEMORY_EFFICIENT => 2

/-- The stream-printing operator for `ExecutionOrder`
(session_options.h): the stream is modelled as a string; the operator appends
the enumerator's name — or "UNKNOWN" for any other underlying value — and
returns the stream. The scoped enum may hold any underlying integer, hence the
`Int` argument. -/
def printExecutionOrder (os : String) (order : Int) : String :=
  os ++ (if order = 0 then "DEFAULT"
         else if order = 1 then "PRIORITY_BASED"
         else if order = 2 then "MEMORY_EFFICIENT"
         else "UNKNOWN")

/-- C10: the printing operator is total: it prints exactly "DEFAULT",
"PRIORITY_BASED", "MEMORY_EFFICIENT" for the three named enumerators, prints
"UNKNOWN" for every other underlying value instead of failing, and always
returns the stream with exactly that one name appended. -/
theorem execution_order_printing_total (os : String) :
    printExecutionOrder os (executionOrderVal ExecutionOrder.DEFAULT) =
      os ++ "DEFAULT" ∧
    printExecutionOrder os (executionOrderVal ExecutionOrder.PRIORITY_BASED) =
      os ++ "PRIORITY_BASED" ∧
    printExecutionOrder os (executionOrderVal ExecutionOrder.MEMORY_EFFICIENT) =
      os ++ "MEMORY_EFFICIENT" ∧
    ∀ x : Int, x ≠ 0 → x ≠ 1 → x ≠ 2 → printExecutionOrder os x = os ++ "UNKNOWN" := by
  refine ⟨rfl, rfl, rfl, ?_⟩
  intro x h0 h1 h2
  unfold printExecutionOrder
  rw [if_neg h0, if_neg h1, if_neg h2]

/-- Witness for C10 at the out-of-range underlying value 7. -/
theorem execution_order_printing_total_witness :
    printExecutionOrder "order:" 7 = "order:" ++ "UNKNOWN" :=
  (execution_order_printing_total "order:").2.2.2 7 (by decide) (by decide) (by decide)

end onnxruntime
